import Mathlib

/-!
Verification of the combination summarizer
(`export_combinations_and_summary` in `testing.py`).

The script enumerates every combination of values over a list of
categorical columns (each column's domain being its distinct non-missing
values plus the wildcard `"all"`), resolves each combination against a
pre-aggregated group-by index, optionally records a subset-export file
per non-empty combination, and returns a sorted summary table.

Shallow embedding conventions:
* a cell is a `Value`: a string, an exact number, or the missing-value
  marker (pandas `NaN`).  Numeric data is modelled exactly, over `ℤ`
  (none of the properties below depends on the numeric domain);
  floating-point rounding is outside the scope of the model;
* a data-frame row is an association list from column names to cells,
  a data frame (`Table`) is its column list plus its rows;
* `pd.to_numeric(..., errors="coerce")` is modelled with an arbitrary
  string-to-number parser `parse : String → Option ℤ` standing for the
  library's numeric parsing; all results hold for every such parser;
* file writes are modelled by the list of file names (relative to the
  output directory) that the run would write; the bytes written to the
  per-combination subset files are not needed by any property considered
  here and are not modelled;
* the schema errors raised by `df[c]` on an absent column (lines 20 and
  23 of the source) are modelled by an `Except` result.
-/

namespace Rep

/-- A table cell: a string, an exact numeric value, or the missing-value
marker (pandas `NaN`). -/
inductive Value where
  | str (s : String)
  | num (q : ℤ)
  | missing
deriving DecidableEq, Repr

/-- A data-frame row: an association list from column names to cells. -/
abbrev Row := List (String × Value)

/-- Cell access `row[c]`; an absent key reads as missing. -/
def Row.get (r : Row) (c : String) : Value :=
  (List.lookup c r).getD Value.missing

/-- A data frame: its column index and its rows. -/
structure Table where
  cols : List String
  rows : List Row
deriving DecidableEq, Repr

/-- One cell of `pd.to_numeric(s, errors="coerce")`: numbers pass through,
strings go through the numeric parser (`none` means unparseable, hence
missing), missing stays missing. -/
def coerceValue (parse : String → Option ℤ) : Value → Value
  | .num q => .num q
  | .str s => (parse s).elim Value.missing Value.num
  | .missing => Value.missing

/-- Line 23, on one row: `df["slack"] = pd.to_numeric(df["slack"], errors="coerce")`.
Only the `"slack"` column is rewritten. -/
def coerceRow (parse : String → Option ℤ) (r : Row) : Row :=
  r.map (fun p => if p.1 = "slack" then (p.1, coerceValue parse p.2) else p)

/-- Line 23 on the whole frame (the in-place column assignment). -/
def coerceTable (parse : String → Option ℤ) (t : Table) : Table :=
  { t with rows := t.rows.map (coerceRow parse) }

/-- Lexicographic comparison of character lists by code point: Python's
string ordering. -/
def charListLe : List Char → List Char → Bool
  | [], _ => true
  | _ :: _, [] => false
  | a :: as, b :: bs =>
    if a.toNat = b.toNat then charListLe as bs else Nat.ble a.toNat b.toNat

/-- Total comparison used for `sorted(...)` and `sort_values`:
numbers by value, strings lexicographically; across kinds, numbers sort
before strings and missing sorts last.  (Python raises on cross-kind
comparisons; the model totalises the order, which only matters for
mixed-kind columns.) -/
def Value.le (a b : Value) : Bool :=
  match a, b with
  | .num x, .num y => decide (x ≤ y)
  | .str s, .str t => charListLe s.data t.data
  | .num _, _ => true
  | _, .num _ => false
  | .str _, _ => true
  | _, .str _ => false
  | .missing, .missing => true

/-- `Value.le` as a decidable relation (for the sorting library). -/
def vle (a b : Value) : Prop :=
  Value.le a b = true

instance : DecidableRel vle := fun a b => Bool.decEq (Value.le a b) true

/-- The distinct non-missing values of column `c`:
`df[c].dropna().unique()` (line 20).  `unique` keeps first occurrences and
`dedup` keeps last ones, but the list is only ever used sorted, where the
difference disappears. -/
def colValues (t : Table) (c : String) : List Value :=
  ((t.rows.map (fun r => Row.get r c)).filter (fun v => v ≠ Value.missing)).dedup

/-- Line 20: `sorted(df[c].dropna().unique().tolist()) + ["all"]`. -/
def domain (t : Table) (c : String) : List Value :=
  (colValues t c).insertionSort vle ++ [Value.str "all"]

/-- The group-by key of a row: its tuple of category-column values
(`df.groupby(filter_cols, dropna=False)` keys; missing values form their
own groups, matching `dropna=False`). -/
def rowKey (filter_cols : List String) (r : Row) : List Value :=
  filter_cols.map (fun c => Row.get r c)

/-- The coerced slack value of a row, `none` when missing. -/
def slackOf (r : Row) : Option ℤ :=
  match Row.get r "slack" with
  | .num q => some q
  | _ => none

/-- The non-missing slack values of a list of rows (pandas excludes `NaN`
from `min` and `sum`). -/
def slacks (rs : List Row) : List ℤ :=
  rs.filterMap slackOf

/-- Minimum of a list of numbers, `none` on the empty list
(pandas: `min` of an empty selection is `NaN`). -/
def minQ : List ℤ → Option ℤ
  | [] => none
  | q :: qs => some ((minQ qs).elim q (fun m => min q m))

/-- Combine two optional minima (missing operands are skipped). -/
def omin (a b : Option ℤ) : Option ℤ :=
  match a, b with
  | none, b => b
  | a, none => a
  | some x, some y => some (min x y)

/-- One pre-aggregated group (one row of `agg`, lines 26–30):
its key tuple and its `rows`, `min_slack`, `sum_slack` aggregates. -/
structure Group where
  key : List Value
  rows : Nat
  min_slack : Option ℤ
  sum_slack : ℤ
deriving DecidableEq, Repr

/-- The aggregates of the group keyed `k`. -/
def groupFor (t : Table) (filter_cols : List String) (k : List Value) : Group :=
  let members := t.rows.filter (fun r => rowKey filter_cols r = k)
  { key := k
    rows := members.length
    min_slack := minQ (slacks members)
    sum_slack := (slacks members).sum }

/-- Lexicographic comparison of key tuples, `Value.le` componentwise
(`agg.sort_index()` and `sort_values(by=filter_cols)`). -/
def lexLe : List Value → List Value → Bool
  | [], _ => true
  | _ :: _, [] => false
  | a :: as, b :: bs => if a = b then lexLe as bs else Value.le a b

/-- `lexLe` as a decidable relation (for the sorting library). -/
def keyLe (a b : List Value) : Prop :=
  lexLe a b = true

instance : DecidableRel keyLe := fun a b => Bool.decEq (lexLe a b) true

/-- Lines 26–31: `df.groupby(filter_cols, dropna=False).agg(...)` followed
by `agg.sort_index()`: one group per distinct key tuple, in key order. -/
def buildAgg (t : Table) (filter_cols : List String) : List Group :=
  (((t.rows.map (rowKey filter_cols)).dedup).insertionSort keyLe).map
    (groupFor t filter_cols)

/-- Line 39's wildcard test `v == "all"`: the literal string `"all"`
always means the wildcard, even when it occurs as data. -/
def isWild (v : Value) : Bool :=
  v = Value.str "all"

/-- Whether a group key falls inside the slicer of a combination:
each wildcard position is unconstrained (`slice(None)`), each concrete
position must match exactly. -/
def keyMatches (combo key : List Value) : Bool :=
  (combo.zip key).all (fun p => isWild p.1 || p.1 = p.2)

/-- The three aggregates reported for one combination. -/
structure Stats where
  rows : Nat
  min_slack : Option ℤ
  sum_slack : ℤ
deriving DecidableEq, Repr

/-- The multi-group branch of lines 47–50: sum of counts, minimum of the
non-missing group minima, sum of the group sums. -/
def rollup (ms : List Group) : Stats :=
  { rows := (ms.map Group.rows).sum
    min_slack := minQ (ms.filterMap Group.min_slack)
    sum_slack := (ms.map Group.sum_slack).sum }

/-- Lines 38–52: resolve one combination against the index.
`[]` is the `except KeyError` fallback `(0, np.nan, 0.0)` (it also covers
the empty partial-wildcard selection, which computes the same values);
`[g]` is the single-row `pd.Series` branch; otherwise the roll-up. -/
def resolve (agg : List Group) (combo : List Value) : Stats :=
  match agg.filter (fun g => keyMatches combo g.key) with
  | [] => { rows := 0, min_slack := none, sum_slack := 0 }
  | [g] => { rows := g.rows, min_slack := g.min_slack, sum_slack := g.sum_slack }
  | ms => rollup ms

/-- Line 35: `itertools.product(*value_lists)` (the last field varies
fastest). -/
def combos : List (List Value) → List (List Value)
  | [] => [[]]
  | l :: ls => (l.map (fun v => (combos ls).map (fun c => v :: c))).flatten

/-- One record of `summary_rows` (lines 54–57): the combination's field
assignments plus its aggregates. -/
structure SummaryRow where
  filters : List Value
  stats : Stats
deriving DecidableEq, Repr

/-- Python's `str(v)` as used in file names. -/
def Value.display : Value → String
  | .str s => s
  | .num q => toString q
  | .missing => "nan"

/-- `str(v).replace('/', '_')`'s substitution: every forward slash becomes
an underscore (for the one-character pattern `"/"`, `replace` is exactly
this character-wise map). -/
def deslash (s : String) : String :=
  String.mk (s.data.map (fun ch => if ch = '/' then '_' else ch))

/-- Lines 65–66: the subset file name of a combination, relative to the
output directory: `"<field>-<value>"` for every field (wildcards
included, as `"<field>-all"`), joined with underscores, `.csv` appended,
slashes in values replaced with underscores. -/
def fname (filter_cols : List String) (combo : List Value) : String :=
  String.intercalate "_"
    ((filter_cols.zip combo).map
      (fun p => p.1 ++ "-" ++ deslash (Value.display p.2))) ++ ".csv"

/-- Comparison of summary records used by line 72's
`sort_values(by=filter_cols, ascending=[True]*len(filter_cols))`: only
the category columns take part. -/
def srLe (a b : SummaryRow) : Bool :=
  lexLe a.filters b.filters

/-- `srLe` as a decidable relation (for the sorting library). -/
def srle (a b : SummaryRow) : Prop :=
  srLe a b = true

instance : DecidableRel srle := fun a b => Bool.decEq (srLe a b) true

/-- The observable outcome of a successful run: the summary's column
list, its sorted records, and the subset file names written. -/
structure RunResult where
  summaryCols : List String
  summary : List SummaryRow
  filenames : List String
deriving DecidableEq, Repr

/-- The body of `export_combinations_and_summary` after the schema
accesses succeed, in source order: domains (line 20, before the
coercion), slack coercion (line 23), pre-aggregation (lines 26–31),
enumeration and resolution (lines 35–57), subset-file selection
(lines 60–67), column selection and sort of the summary (lines 70–72). -/
def runCore (parse : String → Option ℤ) (df : Table)
    (filter_cols : List String) (export_filtered_csvs : Bool) : RunResult :=
  let value_lists := filter_cols.map (fun c => domain df c)
  let df2 := coerceTable parse df
  let agg := buildAgg df2 filter_cols
  let cs := combos value_lists
  { summaryCols := filter_cols ++ ["rows", "min_slack", "sum_slack"]
    summary := (cs.map (fun combo => SummaryRow.mk combo (resolve agg combo))).insertionSort srle
    filenames :=
      if export_filtered_csvs then
        (cs.filter (fun combo => 0 < (resolve agg combo).rows)).map
          (fun combo => fname filter_cols combo)
      else [] }

/-- The pre-aggregation index entry stored for an exact key tuple
(presence of the tuple among `agg`'s keys, as in `agg.loc[slicer]` for a
slicer with no wildcard). -/
def aggLookup (agg : List Group) (k : List Value) : Option Group :=
  agg.find? (fun g => g.key = k)

/-- The sum of `rows` over the fully concrete (wildcard-free) records of
a summary. -/
def concreteRowTotal (res : RunResult) : Nat :=
  ((res.summary.filter (fun e => !(e.filters.any isWild))).map
    (fun e => e.stats.rows)).sum

/-- Failure mode of the run: a required column absent from the frame
(the `KeyError` of `df[c]`, the spec's `SchemaError`). -/
inductive RunError where
  | schemaError (col : String)
deriving DecidableEq, Repr

/-- The whole operation.  Line 20 reads `df[c]` for each filter column in
order and line 23 reads `df["slack"]`; the first absent column aborts the
run, otherwise the run proceeds and returns the summary. -/
def export_combinations_and_summary (parse : String → Option ℤ) (df : Table)
    (filter_cols : List String) (export_filtered_csvs : Bool) :
    Except RunError RunResult :=
  match (filter_cols ++ ["slack"]).find? (fun c => ! df.cols.contains c) with
  | some c => .error (.schemaError c)
  | none => .ok (runCore parse df filter_cols export_filtered_csvs)

/-! ### Order lemmas -/

theorem char_toNat_inj {a b : Char} (h : a.toNat = b.toNat) : a = b := by
  have hv : a.val = b.val := by
    unfold Char.toNat at h
    exact UInt32.toNat.inj h
  exact Char.eq_of_val_eq hv

theorem charListLe_total : ∀ a b : List Char, (charListLe a b || charListLe b a) = true
  | [], _ => by simp [charListLe]
  | _ :: _, [] => by simp [charListLe]
  | a :: as, b :: bs => by
    by_cases h : a.toNat = b.toNat
    · simp [charListLe, h, charListLe_total as bs]
    · have h' : ¬ b.toNat = a.toNat := fun e => h e.symm
      simp only [charListLe, if_neg h, if_neg h', Bool.or_eq_true, Nat.ble_eq]
      omega

theorem charListLe_trans : ∀ {a b c : List Char},
    charListLe a b = true → charListLe b c = true → charListLe a c = true
  | [], _, _, _, _ => by simp [charListLe]
  | _ :: _, [], _, h, _ => by simp [charListLe] at h
  | _ :: _, _ :: _, [], _, h => by simp [charListLe] at h
  | a :: as, b :: bs, c :: cs, h1, h2 => by
    simp only [charListLe] at h1 h2 ⊢
    by_cases hab : a.toNat = b.toNat <;> by_cases hbc : b.toNat = c.toNat
    · rw [if_pos hab] at h1
      rw [if_pos hbc] at h2
      rw [if_pos (hab.trans hbc)]
      exact charListLe_trans h1 h2
    · rw [if_pos hab] at h1
      rw [if_neg hbc] at h2
      rw [if_neg (hab ▸ hbc), hab]
      exact h2
    · rw [if_neg hab] at h1
      rw [if_pos hbc] at h2
      rw [if_neg (hbc ▸ hab), ← hbc]
      exact h1
    · rw [if_neg hab] at h1
      rw [if_neg hbc] at h2
      simp only [Nat.ble_eq] at h1 h2
      by_cases hac : a.toNat = c.toNat
      · omega
      · rw [if_neg hac]
        simp only [Nat.ble_eq]
        omega

theorem charListLe_antisymm : ∀ {a b : List Char},
    charListLe a b = true → charListLe b a = true → a = b
  | [], [], _, _ => rfl
  | _ :: _, [], h, _ => by simp [charListLe] at h
  | [], _ :: _, _, h => by simp [charListLe] at h
  | a :: as, b :: bs, h1, h2 => by
    simp only [charListLe] at h1 h2
    by_cases hab : a.toNat = b.toNat
    · rw [if_pos hab] at h1
      rw [if_pos hab.symm] at h2
      rw [char_toNat_inj hab, charListLe_antisymm h1 h2]
    · rw [if_neg hab] at h1
      rw [if_neg (fun e => hab e.symm)] at h2
      simp only [Nat.ble_eq] at h1 h2
      omega

theorem Value.le_total (a b : Value) : (Value.le a b || Value.le b a) = true := by
  cases a <;> cases b <;>
    simp [Value.le, charListLe_total, Int.le_total]

theorem Value.le_trans {a b c : Value}
    (h1 : Value.le a b = true) (h2 : Value.le b c = true) :
    Value.le a c = true := by
  cases a <;> cases b <;> cases c <;>
    simp_all only [Value.le, decide_eq_true_eq] <;>
    first
      | rfl
      | omega
      | exact charListLe_trans h1 h2
      | exact absurd h1 (by simp)
      | exact absurd h2 (by simp)

theorem Value.le_antisymm {a b : Value}
    (h1 : Value.le a b = true) (h2 : Value.le b a = true) : a = b := by
  cases a <;> cases b <;>
    simp_all only [Value.le, decide_eq_true_eq] <;>
    first
      | rfl
      | (congr 1; omega)
      | (congr 1; exact String.ext (charListLe_antisymm h1 h2))
      | exact absurd h1 (by simp)
      | exact absurd h2 (by simp)

theorem lexLe_total : ∀ a b : List Value, (lexLe a b || lexLe b a) = true
  | [], _ => by simp [lexLe]
  | _ :: _, [] => by simp [lexLe]
  | a :: as, b :: bs => by
    by_cases h : a = b
    · subst h
      simp [lexLe, lexLe_total as bs]
    · simp only [lexLe, if_neg h, if_neg (Ne.symm h)]
      exact Value.le_total a b

theorem lexLe_trans : ∀ {a b c : List Value},
    lexLe a b = true → lexLe b c = true → lexLe a c = true
  | [], _, _, _, _ => by simp [lexLe]
  | _ :: _, [], _, h1, _ => by simp [lexLe] at h1
  | _ :: _, _ :: _, [], _, h2 => by simp [lexLe] at h2
  | a :: as, b :: bs, c :: cs, h1, h2 => by
    simp only [lexLe] at h1 h2 ⊢
    by_cases hab : a = b <;> by_cases hbc : b = c
    · rw [if_pos hab] at h1
      rw [if_pos hbc] at h2
      rw [if_pos (hab.trans hbc)]
      exact lexLe_trans h1 h2
    · rw [if_pos hab] at h1
      rw [if_neg hbc] at h2
      rw [if_neg (hab ▸ hbc), hab]
      exact h2
    · rw [if_neg hab] at h1
      rw [if_pos hbc] at h2
      rw [if_neg (hbc ▸ hab), ← hbc]
      exact h1
    · rw [if_neg hab] at h1
      rw [if_neg hbc] at h2
      by_cases hac : a = c
      · subst hac
        exact absurd (Value.le_antisymm h1 h2) hab
      · rw [if_neg hac]
        exact Value.le_trans h1 h2

instance : IsTotal SummaryRow srle :=
  ⟨fun a b => Bool.or_eq_true _ _ |>.mp (lexLe_total a.filters b.filters)⟩

instance : IsTrans SummaryRow srle :=
  ⟨fun _ _ _ h1 h2 => lexLe_trans h1 h2⟩

/-! ### Lemmas about optional minima -/

theorem minQ_cons (a : ℤ) (l : List ℤ) :
    minQ (a :: l) = omin (some a) (minQ l) := by
  cases h : minQ l <;> simp [minQ, omin, h]

theorem omin_assoc (a b c : Option ℤ) :
    omin (omin a b) c = omin a (omin b c) := by
  cases a <;> cases b <;> cases c <;> simp [omin, min_assoc]

theorem omin_left_comm (a b c : Option ℤ) :
    omin a (omin b c) = omin b (omin a c) := by
  cases a <;> cases b <;> cases c <;> simp [omin, min_left_comm, min_comm]

theorem minQ_append (l₁ l₂ : List ℤ) :
    minQ (l₁ ++ l₂) = omin (minQ l₁) (minQ l₂) := by
  induction l₁ with
  | nil => simp [minQ, omin]
  | cons a l ih => rw [List.cons_append, minQ_cons, ih, minQ_cons, omin_assoc]

theorem minQ_perm {l l' : List ℤ} (h : l.Perm l') : minQ l = minQ l' := by
  induction h with
  | nil => rfl
  | cons a _ ih => rw [minQ_cons, minQ_cons, ih]
  | swap x y l => rw [minQ_cons, minQ_cons, minQ_cons, minQ_cons, omin_left_comm]
  | trans _ _ ih1 ih2 => exact ih1.trans ih2

theorem minQ_flatten_filterMap (Ls : List (List ℤ)) :
    minQ Ls.flatten = minQ (Ls.filterMap minQ) := by
  induction Ls with
  | nil => rfl
  | cons L Ls ih =>
    rw [List.flatten_cons, minQ_append, ih]
    cases h : minQ L with
    | none => simp [List.filterMap_cons, h, omin]
    | some m => simp [List.filterMap_cons, h, minQ_cons]

/-! ### Counting and partition lemmas -/

theorem count_filter_ite {α : Type} [DecidableEq α] (p : α → Bool) (l : List α) (a : α) :
    (l.filter p).count a = if p a = true then l.count a else 0 := by
  by_cases hp : p a = true
  · rw [if_pos hp]
    exact List.count_filter hp
  · rw [if_neg hp]
    refine List.count_eq_zero_of_not_mem (fun hmem => ?_)
    rw [List.mem_filter] at hmem
    exact hp hmem.2

theorem sum_map_add {α : Type} (K : List α) (f g : α → Nat) :
    (K.map (fun k => f k + g k)).sum = (K.map f).sum + (K.map g).sum := by
  induction K with
  | nil => rfl
  | cons k K ih =>
    simp only [List.map_cons, List.sum_cons, ih]
    omega

theorem sum_map_ite {α : Type} [DecidableEq α] (K : List α) (a : α) (c : Nat) :
    (K.map (fun k => if a = k then c else 0)).sum = c * K.count a := by
  induction K with
  | nil => rfl
  | cons k K ih =>
    simp only [List.map_cons, List.sum_cons, ih, List.count_cons]
    by_cases h : a = k
    · rw [if_pos h, if_pos (by exact beq_iff_eq.mpr h.symm), Nat.mul_add]
      omega
    · rw [if_neg h, if_neg (by simp [beq_iff_eq]; exact fun e => h e.symm)]
      simp

theorem sum_count_eq_length {α : Type} [DecidableEq α] (K L : List α)
    (hnd : K.Nodup) (hsub : ∀ a ∈ L, a ∈ K) :
    (K.map (fun k => L.count k)).sum = L.length := by
  induction L with
  | nil => simp
  | cons a L ih =>
    have hstep : (K.map (fun k => (a :: L).count k)).sum
        = (K.map (fun k => L.count k)).sum
          + (K.map (fun k => if a = k then 1 else 0)).sum := by
      rw [← sum_map_add]
      refine congrArg _ (List.map_congr_left (fun k _ => ?_))
      rw [List.count_cons]
      by_cases h : a = k
      · rw [if_pos h, if_pos (by exact beq_iff_eq.mpr h)]
      · rw [if_neg h, if_neg (by simp [beq_iff_eq]; exact h)]
    rw [hstep, ih (fun x hx => hsub x (List.mem_cons_of_mem a hx)), sum_map_ite,
      List.count_eq_one_of_mem hnd (hsub a (List.mem_cons_self a L))]
    simp [List.length_cons]

theorem countP_eq_sum_count_dedup_filter {α : Type} [DecidableEq α]
    (L : List α) (p : α → Bool) :
    ((L.dedup.filter p).map (fun k => L.count k)).sum = L.countP p := by
  have h1 : L.countP p = (L.filter p).length := List.countP_eq_length_filter p L
  have h2 : ((L.filter p).dedup.map (fun k => (L.filter p).count k)).sum
      = (L.filter p).length := List.sum_map_count_dedup_eq_length _
  have h3 : (L.filter p).dedup.map (fun k => (L.filter p).count k)
      = (L.filter p).dedup.map (fun k => L.count k) := by
    refine List.map_congr_left (fun k hk => ?_)
    rw [List.mem_dedup, List.mem_filter] at hk
    exact List.count_filter hk.2
  have hperm : (L.filter p).dedup.Perm (L.dedup.filter p) := by
    rw [List.perm_ext_iff_of_nodup (List.nodup_dedup _)
      (List.Nodup.filter p (List.nodup_dedup _))]
    intro a
    simp only [List.mem_dedup, List.mem_filter]
  calc ((L.dedup.filter p).map (fun k => L.count k)).sum
      = ((L.filter p).dedup.map (fun k => L.count k)).sum :=
        ((hperm.map _).sum_eq).symm
    _ = ((L.filter p).dedup.map (fun k => (L.filter p).count k)).sum := by rw [h3]
    _ = (L.filter p).length := h2
    _ = L.countP p := h1.symm

theorem flatten_groups_perm {α β : Type} [DecidableEq α] [DecidableEq β]
    (L : List α) (f : α → β) :
    (((L.map f).dedup).map (fun k => L.filter (fun x => f x = k))).flatten.Perm L := by
  rw [List.perm_iff_count]
  intro x
  rw [List.count_flatten, List.map_map]
  have h1 : (List.map (fun k => (L.filter (fun y => f y = k)).count x)
      ((L.map f).dedup)).sum
      = (List.map (fun k => if f x = k then L.count x else 0) ((L.map f).dedup)).sum := by
    refine congrArg _ (List.map_congr_left (fun k _ => ?_))
    rw [count_filter_ite]
    simp only [decide_eq_true_eq]
  have h2 := sum_map_ite ((L.map f).dedup) (f x) (L.count x)
  simp only [Function.comp_def]
  rw [h1, h2]
  by_cases hx : x ∈ L
  · rw [List.count_eq_one_of_mem (List.nodup_dedup _)
      (List.mem_dedup.mpr (List.mem_map_of_mem f hx))]
    omega
  · rw [List.count_eq_zero_of_not_mem hx]
    omega

/-! ### Structure of the pre-aggregation index -/

theorem mem_buildAgg {t : Table} {fc : List String} {g : Group} :
    g ∈ buildAgg t fc ↔
      (∃ r ∈ t.rows, rowKey fc r = g.key) ∧ g = groupFor t fc g.key := by
  unfold buildAgg
  rw [List.mem_map]
  constructor
  · rintro ⟨k, hk, rfl⟩
    rw [List.mem_insertionSort, List.mem_dedup, List.mem_map] at hk
    obtain ⟨r, hr, rfl⟩ := hk
    exact ⟨⟨r, hr, rfl⟩, rfl⟩
  · rintro ⟨⟨r, hr, hkey⟩, hg⟩
    refine ⟨g.key, ?_, hg.symm⟩
    rw [List.mem_insertionSort, List.mem_dedup, List.mem_map]
    exact ⟨r, hr, hkey⟩

theorem buildAgg_keys (t : Table) (fc : List String) :
    (buildAgg t fc).map Group.key
      = ((t.rows.map (rowKey fc)).dedup).insertionSort keyLe := by
  unfold buildAgg
  rw [List.map_map]
  exact List.map_id _

theorem buildAgg_keys_nodup (t : Table) (fc : List String) :
    ((buildAgg t fc).map Group.key).Nodup := by
  rw [buildAgg_keys]
  exact (List.perm_insertionSort keyLe _).symm.nodup (List.nodup_dedup _)

theorem buildAgg_key_length {t : Table} {fc : List String} {g : Group}
    (hg : g ∈ buildAgg t fc) : g.key.length = fc.length := by
  obtain ⟨⟨r, _, hkey⟩, _⟩ := mem_buildAgg.mp hg
  rw [← hkey]
  simp [rowKey]

theorem buildAgg_rows_pos {t : Table} {fc : List String} {g : Group}
    (hg : g ∈ buildAgg t fc) : 0 < g.rows := by
  obtain ⟨⟨r, hr, hkey⟩, hgval⟩ := mem_buildAgg.mp hg
  have hmem : r ∈ t.rows.filter (fun r' => rowKey fc r' = g.key) :=
    List.mem_filter.mpr ⟨hr, by simp [hkey]⟩
  rw [hgval]
  exact List.length_pos.mpr (List.ne_nil_of_mem hmem)

/-! ### Structure of the enumeration -/

theorem mem_combos : ∀ {ls : List (List Value)} {c : List Value},
    c ∈ combos ls ↔ List.Forall₂ (fun v l => v ∈ l) c ls
  | [], c => by simp [combos, List.forall₂_nil_right_iff, eq_comm]
  | l :: ls, c => by
    simp only [combos, List.mem_flatten, List.mem_map, List.forall₂_cons_right_iff]
    constructor
    · rintro ⟨inner, ⟨v, hv, rfl⟩, hc⟩
      rw [List.mem_map] at hc
      obtain ⟨c', hc', rfl⟩ := hc
      exact ⟨v, c', hv, mem_combos.mp hc', rfl⟩
    · rintro ⟨v, c', hv, hc', rfl⟩
      exact ⟨(combos ls).map (fun c => v :: c), ⟨v, hv, rfl⟩,
        List.mem_map_of_mem _ (mem_combos.mpr hc')⟩

theorem length_of_mem_combos {ls : List (List Value)} {c : List Value}
    (h : c ∈ combos ls) : c.length = ls.length :=
  (mem_combos.mp h).length_eq

theorem combos_nodup : ∀ {ls : List (List Value)},
    (∀ l ∈ ls, l.Nodup) → (combos ls).Nodup
  | [], _ => by simp [combos]
  | l :: ls, h => by
    have hl : l.Nodup := h l (List.mem_cons_self l ls)
    have hls : (combos ls).Nodup :=
      combos_nodup (fun l' hl' => h l' (List.mem_cons_of_mem l hl'))
    unfold combos
    rw [List.nodup_flatten]
    refine ⟨?_, ?_⟩
    · rintro inner hinner
      rw [List.mem_map] at hinner
      obtain ⟨v, _, rfl⟩ := hinner
      exact hls.map (fun a b hab => (List.cons.injEq _ _ _ _).mp hab |>.2)
    · rw [List.pairwise_map]
      refine hl.imp (fun {a b} hab => ?_)
      intro x hxa hxb
      rw [List.mem_map] at hxa hxb
      obtain ⟨c1, _, rfl⟩ := hxa
      obtain ⟨c2, _, he⟩ := hxb
      exact hab ((List.cons.injEq _ _ _ _).mp he |>.1).symm

/-! ### Resolution lemmas -/

theorem keyMatches_of_concrete : ∀ {combo key : List Value},
    (∀ v ∈ combo, isWild v = false) → combo.length = key.length →
    (keyMatches combo key = true ↔ combo = key)
  | [], [], _, _ => by simp [keyMatches]
  | [], _ :: _, _, hlen => by simp at hlen
  | _ :: _, [], _, hlen => by simp at hlen
  | a :: as, b :: bs, hw, hlen => by
    have ha : isWild a = false := hw a (List.mem_cons_self a as)
    have htail := keyMatches_of_concrete
      (fun v hv => hw v (List.mem_cons_of_mem a hv))
      (by simpa using hlen)
    simp only [keyMatches, List.zip_cons_cons, List.all_cons, Bool.and_eq_true,
      Bool.or_eq_true, ha, List.cons.injEq] at *
    constructor
    · rintro ⟨hhead, htl⟩
      rcases hhead with h | h
      · simp at h
      · exact ⟨by simpa using h, htail.mp htl⟩
    · rintro ⟨rfl, rfl⟩
      exact ⟨Or.inr (by simp), htail.mpr rfl⟩

theorem keyMatches_all_wild {fc : List String} {key : List Value} :
    keyMatches (fc.map (fun _ => Value.str "all")) key = true := by
  unfold keyMatches
  rw [List.all_eq_true]
  rintro ⟨v, w⟩ hp
  have hv := (List.of_mem_zip hp).1
  rw [List.mem_map] at hv
  obtain ⟨_, _, rfl⟩ := hv
  simp [isWild]

theorem resolve_eq_rollup (agg : List Group) (combo : List Value) :
    resolve agg combo = rollup (agg.filter (fun g => keyMatches combo g.key)) := by
  unfold resolve
  cases h : agg.filter (fun g => keyMatches combo g.key) with
  | nil => simp [rollup, minQ]
  | cons g gs =>
    cases gs with
    | nil =>
      cases hm : g.min_slack with
      | none => simp [rollup, hm, minQ]
      | some m => simp [rollup, hm, minQ]
    | cons g' gs' => rfl

theorem rollup_rows (ms : List Group) :
    (rollup ms).rows = (ms.map Group.rows).sum := rfl

theorem length_filter_eq_count {α β : Type} [DecidableEq β]
    (L : List α) (f : α → β) (k : β) :
    (L.filter (fun x => f x = k)).length = (L.map f).count k := by
  rw [← List.countP_eq_length_filter, List.count_eq_countP, List.countP_map]
  refine List.countP_congr (fun r _ => ?_)
  simp [Function.comp]

/-- Lines 38–52, counting: for every combination (of the right width),
the reported `rows` is the number of table rows whose key tuple falls
inside the combination's slicer — concrete positions must match exactly,
wildcard positions are unconstrained. -/
theorem resolve_rows_countP (t : Table) (fc : List String) (combo : List Value) :
    (resolve (buildAgg t fc) combo).rows
      = t.rows.countP (fun r => keyMatches combo (rowKey fc r)) := by
  rw [resolve_eq_rollup]
  have h0 : (buildAgg t fc).filter (fun g => keyMatches combo g.key)
      = (((t.rows.map (rowKey fc)).dedup.insertionSort keyLe).filter
          (fun k => keyMatches combo k)).map (groupFor t fc) := by
    unfold buildAgg
    rw [List.filter_map]
    exact congrArg _ (List.filter_congr (fun k _ => rfl))
  rw [rollup_rows, h0, List.map_map]
  refine Eq.trans (congrArg List.sum (List.map_congr_left
    (fun k _ => length_filter_eq_count t.rows (rowKey fc) k))) ?_
  have hperm : (((t.rows.map (rowKey fc)).dedup.insertionSort keyLe).filter
        (fun k => keyMatches combo k)).Perm
      ((t.rows.map (rowKey fc)).dedup.filter (fun k => keyMatches combo k)) :=
    (List.perm_insertionSort keyLe _).filter _
  refine Eq.trans ((hperm.map _).sum_eq) ?_
  refine Eq.trans (countP_eq_sum_count_dedup_filter (t.rows.map (rowKey fc))
    (fun k => keyMatches combo k)) ?_
  rw [List.countP_map]
  exact List.countP_congr (fun r _ => Iff.rfl)

/-! ### The pre-aggregation partitions the table -/

theorem members_flatten_perm (t : Table) (fc : List String) :
    ((((t.rows.map (rowKey fc)).dedup.insertionSort keyLe).map
      (fun k => t.rows.filter (fun r => rowKey fc r = k))).flatten).Perm t.rows :=
  (((List.perm_insertionSort keyLe _).map _).flatten).trans
    (flatten_groups_perm t.rows (rowKey fc))

theorem agg_rows_total (t : Table) (fc : List String) :
    ((buildAgg t fc).map Group.rows).sum = t.rows.length := by
  unfold buildAgg
  rw [List.map_map]
  have h1 : (Group.rows ∘ groupFor t fc)
      = List.length ∘ fun k => t.rows.filter (fun r => rowKey fc r = k) := rfl
  rw [h1, ← List.map_map, ← List.length_flatten]
  exact (members_flatten_perm t fc).length_eq

theorem agg_sum_slack (t : Table) (fc : List String) :
    ((buildAgg t fc).map Group.sum_slack).sum = (slacks t.rows).sum := by
  unfold buildAgg
  rw [List.map_map]
  have h1 : (Group.sum_slack ∘ groupFor t fc)
      = List.sum ∘ List.filterMap slackOf ∘
          fun k => t.rows.filter (fun r => rowKey fc r = k) := rfl
  rw [h1, ← List.map_map, ← List.map_map, ← List.sum_flatten,
    ← List.filterMap_flatten]
  exact ((members_flatten_perm t fc).filterMap slackOf).sum_eq

theorem agg_min_slack (t : Table) (fc : List String) :
    minQ ((buildAgg t fc).filterMap Group.min_slack) = minQ (slacks t.rows) := by
  unfold buildAgg
  rw [List.filterMap_map]
  have hfun : (Group.min_slack ∘ groupFor t fc)
      = (minQ ∘ fun k =>
          List.filterMap slackOf (t.rows.filter (fun r => rowKey fc r = k))) := rfl
  rw [hfun, ← List.filterMap_map, ← minQ_flatten_filterMap]
  rw [show (fun k =>
        List.filterMap slackOf (t.rows.filter (fun r => rowKey fc r = k)))
      = (List.filterMap slackOf ∘
          fun k => t.rows.filter (fun r => rowKey fc r = k)) from rfl]
  rw [← List.map_map, ← List.filterMap_flatten]
  exact minQ_perm ((members_flatten_perm t fc).filterMap slackOf)

/-! ### The produced summary table -/

theorem runCore_summaryCols (parse : String → Option ℤ) (df : Table)
    (fc : List String) (b : Bool) :
    (runCore parse df fc b).summaryCols
      = fc ++ ["rows", "min_slack", "sum_slack"] := rfl

theorem runCore_summary (parse : String → Option ℤ) (df : Table)
    (fc : List String) (b : Bool) :
    (runCore parse df fc b).summary
      = ((combos (fc.map (fun c => domain df c))).map
          (fun combo => SummaryRow.mk combo
            (resolve (buildAgg (coerceTable parse df) fc) combo))).insertionSort
          srle := rfl

theorem runCore_filenames (parse : String → Option ℤ) (df : Table)
    (fc : List String) (b : Bool) :
    (runCore parse df fc b).filenames
      = if b then
          ((combos (fc.map (fun c => domain df c))).filter
            (fun combo =>
              0 < (resolve (buildAgg (coerceTable parse df) fc) combo).rows)).map
            (fun combo => fname fc combo)
        else [] := rfl

/-- A record sits in the final summary exactly when its field assignment
is one of the enumerated combinations and its aggregates are that
combination's resolution. -/
theorem mem_summary {parse : String → Option ℤ} {df : Table} {fc : List String}
    {b : Bool} {e : SummaryRow} :
    e ∈ (runCore parse df fc b).summary ↔
      e.filters ∈ combos (fc.map (fun c => domain df c)) ∧
        e.stats = resolve (buildAgg (coerceTable parse df) fc) e.filters := by
  rw [runCore_summary, List.mem_insertionSort, List.mem_map]
  constructor
  · rintro ⟨combo, hc, rfl⟩
    exact ⟨hc, rfl⟩
  · rintro ⟨hc, hs⟩
    exact ⟨e.filters, hc, by rw [← hs]⟩

/-! ### The numeric coercion -/

theorem coerceValue_idem (parse : String → Option ℤ) (v : Value) :
    coerceValue parse (coerceValue parse v) = coerceValue parse v := by
  cases v with
  | num q => rfl
  | missing => rfl
  | str s => cases h : parse s <;> simp [coerceValue, h]

theorem coerceRow_idem (parse : String → Option ℤ) (r : Row) :
    coerceRow parse (coerceRow parse r) = coerceRow parse r := by
  unfold coerceRow
  rw [List.map_map]
  refine List.map_congr_left (fun p _ => ?_)
  by_cases h : p.1 = "slack"
  · simp [Function.comp, h, coerceValue_idem]
  · simp [Function.comp, h]

theorem coerceTable_idem (parse : String → Option ℤ) (t : Table) :
    coerceTable parse (coerceTable parse t) = coerceTable parse t := by
  show Table.mk t.cols ((t.rows.map (coerceRow parse)).map (coerceRow parse))
      = Table.mk t.cols (t.rows.map (coerceRow parse))
  rw [List.map_map]
  exact congrArg _ (List.map_congr_left (fun r _ => coerceRow_idem parse r))

theorem coerceRow_cons (parse : String → Option ℤ) (k : String) (v : Value)
    (r : Row) :
    coerceRow parse ((k, v) :: r)
      = (if k = "slack" then (k, coerceValue parse v) else (k, v))
          :: coerceRow parse r := by
  unfold coerceRow
  rw [List.map_cons]

theorem lookup_coerceRow (parse : String → Option ℤ) (c : String)
    (hc : c ≠ "slack") :
    ∀ r : Row, List.lookup c (coerceRow parse r) = List.lookup c r
  | [] => rfl
  | (k, v) :: r => by
    rw [coerceRow_cons]
    by_cases hk : k = "slack"
    · subst hk
      rw [if_pos rfl]
      simp only [List.lookup]
      cases hck : (c == "slack") with
      | true => exact absurd (by simpa using hck) hc
      | false => exact lookup_coerceRow parse c hc r
    · rw [if_neg hk]
      simp only [List.lookup]
      cases hck : (c == k) with
      | true => rfl
      | false => exact lookup_coerceRow parse c hc r

/-- The only column the coercion step rewrites is `"slack"`: every other
cell of every row reads the same before and after line 23. -/
theorem get_coerceRow (parse : String → Option ℤ) {c : String}
    (hc : c ≠ "slack") (r : Row) :
    Row.get (coerceRow parse r) c = Row.get r c := by
  unfold Row.get
  rw [lookup_coerceRow parse c hc r]

theorem colValues_coerce (parse : String → Option ℤ) (t : Table) {c : String}
    (hc : c ≠ "slack") :
    colValues (coerceTable parse t) c = colValues t c := by
  unfold colValues coerceTable
  simp only [List.map_map]
  exact congrArg _ (congrArg _ (List.map_congr_left
    (fun r _ => get_coerceRow parse hc r)))

theorem domain_coerce (parse : String → Option ℤ) (t : Table) {c : String}
    (hc : c ≠ "slack") :
    domain (coerceTable parse t) c = domain t c := by
  unfold domain
  rw [colValues_coerce parse t hc]

theorem rowKey_coerceRow (parse : String → Option ℤ) {fc : List String}
    (hsl : "slack" ∉ fc) (r : Row) :
    rowKey fc (coerceRow parse r) = rowKey fc r := by
  unfold rowKey
  exact List.map_congr_left
    (fun c hc => get_coerceRow parse (fun e => hsl (e ▸ hc)) r)

theorem mem_colValues {t : Table} {c : String} {v : Value} :
    v ∈ colValues t c ↔
      v ∈ t.rows.map (fun r => Row.get r c) ∧ v ≠ Value.missing := by
  unfold colValues
  rw [List.mem_dedup, List.mem_filter]
  simp

/-- The exact-tuple lookup: with distinct group keys, filtering the index
for one exact key finds at most one group, the one `find?` returns. -/
theorem filter_key_eq_aggLookup (agg : List Group) (k : List Value)
    (hnd : (agg.map Group.key).Nodup) :
    agg.filter (fun g => g.key = k)
      = (aggLookup agg k).elim [] (fun g => [g]) := by
  induction agg with
  | nil => rfl
  | cons g agg ih =>
    rw [List.map_cons, List.nodup_cons] at hnd
    by_cases hk : g.key = k
    · have hrest : agg.filter (fun g' => g'.key = k) = [] := by
        rw [List.filter_eq_nil_iff]
        intro g' hg' hkey
        rw [decide_eq_true_eq] at hkey
        exact hnd.1 (hk ▸ hkey ▸ List.mem_map_of_mem Group.key hg')
      rw [List.filter_cons_of_pos (by simpa using hk), hrest]
      unfold aggLookup
      rw [List.find?_cons]
      simp [hk]
    · rw [List.filter_cons_of_neg (by simpa using hk)]
      unfold aggLookup
      rw [List.find?_cons]
      have : (decide (g.key = k)) = false := by simpa using hk
      rw [this]
      exact ih hnd.2

/-- Restricting the enumeration to its wildcard-free combinations is the
enumeration over the wildcard-free parts of the domains. -/
theorem combos_filter_noWild : ∀ ls : List (List Value),
    (combos ls).filter (fun c => !(c.any isWild))
      = combos (ls.map (fun l => l.filter (fun v => !(isWild v))))
  | [] => rfl
  | l :: ls => by
    simp only [combos, List.map_cons]
    rw [List.filter_flatten, List.map_map]
    simp only [Function.comp_def]
    induction l with
    | nil => rfl
    | cons v l ihl =>
      simp only [List.map_cons, List.flatten_cons]
      by_cases hv : isWild v = true
      · have h1 : List.filter (fun c => !(c.any isWild))
            ((combos ls).map (fun c => v :: c)) = [] := by
          rw [List.filter_eq_nil_iff]
          intro x hx
          rw [List.mem_map] at hx
          obtain ⟨c, _, rfl⟩ := hx
          simp [hv]
        rw [List.filter_cons_of_neg (by simp [hv]), h1, List.nil_append]
        exact ihl
      · have hv' : isWild v = false := by simpa using hv
        have h2 : List.filter (fun c => !(c.any isWild))
            ((combos ls).map (fun c => v :: c))
            = (combos (ls.map (fun l => l.filter (fun v => !(isWild v))))).map
                (fun c => v :: c) := by
          rw [List.filter_map]
          simp only [Function.comp_def, List.any_cons, hv', Bool.false_or]
          rw [combos_filter_noWild ls]
        rw [List.filter_cons_of_pos (by simp [hv])]
        simp only [List.map_cons, List.flatten_cons]
        rw [h2, ihl]

/-! ### Concrete tables used for witnesses and counterexamples -/

/-- A numeric parser accepting nothing (fine for tables whose slack cells
are already numeric). -/
def noParse : String → Option ℤ := fun _ => none

/-- The spec's worked example: columns `endpoint, corner, slack`,
rows `(E1,C1,1.0), (E1,C1,-2.0), (E2,C1,3.0)`. -/
def exampleTable : Table :=
  { cols := ["endpoint", "corner", "slack"]
    rows :=
      [ [("endpoint", Value.str "E1"), ("corner", Value.str "C1"), ("slack", Value.num 1)]
      , [("endpoint", Value.str "E1"), ("corner", Value.str "C1"), ("slack", Value.num (-2))]
      , [("endpoint", Value.str "E2"), ("corner", Value.str "C1"), ("slack", Value.num 3)] ] }

/-- A table whose only row has a missing category value. -/
def missingCatTable : Table :=
  { cols := ["a", "slack"]
    rows := [[("a", Value.missing), ("slack", Value.num 1)]] }

/-- A table with the literal string `"all"` as a category value. -/
def allDataTable : Table :=
  { cols := ["k", "slack"]
    rows :=
      [ [("k", Value.str "all"), ("slack", Value.num 1)]
      , [("k", Value.str "x"), ("slack", Value.num 2)]
      , [("k", Value.str "x"), ("slack", Value.num 3)] ] }

/-- Two category columns whose cross product has an empty cell:
no row has `p = "A"` together with `q = "Y"`. -/
def sparseTable : Table :=
  { cols := ["p", "q", "slack"]
    rows :=
      [ [("p", Value.str "A"), ("q", Value.str "X"), ("slack", Value.num 1)]
      , [("p", Value.str "B"), ("q", Value.str "Y"), ("slack", Value.num 2)] ] }

/-- A table without a `"slack"` column. -/
def noSlackTable : Table := { cols := ["a"], rows := [] }

/-! ### The claims -/

/-- C5: a named category field or the slack field absent from the input
table makes the operation fail with a schema error (surfaced as the run's
result; nothing is computed). -/
theorem missing_column_schema_error (parse : String → Option ℤ) (df : Table)
    (fc : List String) (b : Bool)
    (h : (∃ c ∈ fc, c ∉ df.cols) ∨ "slack" ∉ df.cols) :
    ∃ c, export_combinations_and_summary parse df fc b
      = Except.error (RunError.schemaError c) := by
  have hex : ∃ c ∈ fc ++ ["slack"], (! df.cols.contains c) = true := by
    rcases h with ⟨c, hc, hnc⟩ | hns
    · exact ⟨c, List.mem_append_left _ hc, by simpa using hnc⟩
    · exact ⟨"slack", List.mem_append_right _ (by simp), by simpa using hns⟩
  cases hfind : (fc ++ ["slack"]).find? (fun c => ! df.cols.contains c) with
  | none =>
    rw [List.find?_eq_none] at hfind
    obtain ⟨c, hc, hpc⟩ := hex
    exact absurd hpc (hfind c hc)
  | some c =>
    refine ⟨c, ?_⟩
    unfold export_combinations_and_summary
    rw [hfind]

theorem missing_column_schema_error_witness :
    ("slack" ∉ noSlackTable.cols)
    ∧ ∃ c, export_combinations_and_summary noParse noSlackTable ["a"] true
        = Except.error (RunError.schemaError c) :=
  ⟨by decide, missing_column_schema_error noParse noSlackTable ["a"] true
    (Or.inr (by decide))⟩

/-- C7: the returned summary's columns are the category fields, in their
given order, followed by `rows`, `min_slack`, `sum_slack`; its records
are sorted lexicographically ascending by the category fields in field
order. -/
theorem summary_columns_and_sorted (parse : String → Option ℤ) (df : Table)
    (fc : List String) (b : Bool) :
    (runCore parse df fc b).summaryCols
      = fc ++ ["rows", "min_slack", "sum_slack"]
    ∧ List.Pairwise (fun e1 e2 => lexLe e1.filters e2.filters = true)
        (runCore parse df fc b).summary := by
  refine ⟨rfl, ?_⟩
  rw [runCore_summary]
  exact List.sorted_insertionSort srle _

/-- C8: the operation's only modification of the input table is the
numeric coercion of the slack column: the column list is unchanged, the
rows correspond one-to-one through `coerceRow`, and every cell outside
the `"slack"` column reads the same afterwards. -/
theorem only_slack_coerced (parse : String → Option ℤ) (df : Table) :
    (coerceTable parse df).cols = df.cols
    ∧ (coerceTable parse df).rows = df.rows.map (coerceRow parse)
    ∧ ∀ c : String, c ≠ "slack" → ∀ r : Row,
        Row.get (coerceRow parse r) c = Row.get r c :=
  ⟨rfl, rfl, fun _ hc r => get_coerceRow parse hc r⟩

theorem only_slack_coerced_witness :
    ("endpoint" ≠ "slack")
    ∧ Row.get (coerceRow noParse
        [("endpoint", Value.str "E1"), ("slack", Value.str "x")]) "endpoint"
      = Row.get [("endpoint", Value.str "E1"), ("slack", Value.str "x")]
          "endpoint" :=
  ⟨by decide, (only_slack_coerced noParse exampleTable).2.2 "endpoint"
    (by decide) _⟩

/-- C9: with the subset-export flag set, exactly the combinations with a
positive row count are written, each under the name built from
`<field>-<value>` for every field in order — wildcard fields included
literally as `<field>-all` — joined with underscores, with forward
slashes in values replaced by underscores and a `.csv` suffix. -/
theorem subset_filenames_formula (parse : String → Option ℤ) (df : Table)
    (fc : List String) :
    (runCore parse df fc true).filenames
      = ((combos (fc.map (fun c => domain df c))).filter
          (fun combo =>
            0 < (resolve (buildAgg (coerceTable parse df) fc) combo).rows)).map
          (fun combo => String.intercalate "_"
            ((fc.zip combo).map
              (fun p => p.1 ++ "-" ++ deslash (Value.display p.2))) ++ ".csv")
    ∧ Value.display (Value.str "all") = "all"
    ∧ deslash "a/b" = "a_b" :=
  ⟨rfl, rfl, by decide⟩

/-- C1: for an enumerated combination with no wildcard, the summary's
row count is the number of input rows whose category fields equal the
combination's values, and is the count stored in the pre-aggregation
index for that exact tuple (0 when the tuple is absent). -/
theorem concrete_combo_row_count (parse : String → Option ℤ) (df : Table)
    (fc : List String) (combo : List Value) (b : Bool)
    (hmem : combo ∈ combos (fc.map (fun c => domain df c)))
    (hconc : ∀ v ∈ combo, isWild v = false)
    (hsl : "slack" ∉ fc) :
    (∀ e ∈ (runCore parse df fc b).summary, e.filters = combo →
        e.stats.rows = df.rows.countP (fun r => rowKey fc r = combo)
      ∧ e.stats.rows
          = ((aggLookup (buildAgg (coerceTable parse df) fc) combo).map
              Group.rows).getD 0)
    ∧ ∃ e ∈ (runCore parse df fc b).summary, e.filters = combo := by
  have hlen : combo.length = fc.length := by
    have h := length_of_mem_combos hmem
    simpa using h
  have hrows1 : (resolve (buildAgg (coerceTable parse df) fc) combo).rows
      = df.rows.countP (fun r => rowKey fc r = combo) := by
    rw [resolve_rows_countP,
      show (coerceTable parse df).rows = df.rows.map (coerceRow parse) from rfl,
      List.countP_map]
    refine List.countP_congr (fun r _ => ?_)
    show keyMatches combo (rowKey fc (coerceRow parse r)) = true
        ↔ decide (rowKey fc r = combo) = true
    rw [rowKey_coerceRow parse hsl r, decide_eq_true_eq,
      keyMatches_of_concrete hconc (by simp [rowKey, hlen])]
    exact eq_comm
  have hrows2 : (resolve (buildAgg (coerceTable parse df) fc) combo).rows
      = ((aggLookup (buildAgg (coerceTable parse df) fc) combo).map
          Group.rows).getD 0 := by
    rw [resolve_eq_rollup]
    have hfilter : (buildAgg (coerceTable parse df) fc).filter
        (fun g => keyMatches combo g.key)
        = (buildAgg (coerceTable parse df) fc).filter
            (fun g => g.key = combo) := by
      refine List.filter_congr (fun g hg => ?_)
      rw [Bool.eq_iff_iff, decide_eq_true_eq,
        keyMatches_of_concrete hconc (by rw [hlen, buildAgg_key_length hg])]
      exact eq_comm
    rw [hfilter, filter_key_eq_aggLookup _ _ (buildAgg_keys_nodup _ _)]
    cases h : aggLookup (buildAgg (coerceTable parse df) fc) combo with
    | none => rfl
    | some g => simp [rollup]
  refine ⟨fun e he hef => ?_,
    ⟨⟨combo, resolve (buildAgg (coerceTable parse df) fc) combo⟩,
      mem_summary.mpr ⟨hmem, rfl⟩, rfl⟩⟩
  obtain ⟨-, hstats⟩ := mem_summary.mp he
  constructor
  · rw [hstats, hef]
    exact hrows1
  · rw [hstats, hef]
    exact hrows2

theorem concrete_combo_row_count_witness :
    ([Value.str "E1", Value.str "C1"]
        ∈ combos (["endpoint", "corner"].map (fun c => domain exampleTable c))
      ∧ (∀ v ∈ [Value.str "E1", Value.str "C1"], isWild v = false)
      ∧ "slack" ∉ ["endpoint", "corner"])
    ∧ ∃ e ∈ (runCore noParse exampleTable ["endpoint", "corner"] false).summary,
        e.filters = [Value.str "E1", Value.str "C1"] :=
  ⟨⟨by decide, by decide, by decide⟩,
    (concrete_combo_row_count noParse exampleTable ["endpoint", "corner"]
      [Value.str "E1", Value.str "C1"] false (by decide) (by decide)
      (by decide)).2⟩

/-- C2: the all-wildcard record reports the total number of input rows,
the minimum of the non-missing coerced slack values, and their sum. -/
theorem all_wildcard_totals (parse : String → Option ℤ) (df : Table)
    (fc : List String) (b : Bool) :
    (∀ e ∈ (runCore parse df fc b).summary,
        e.filters = fc.map (fun _ => Value.str "all") →
          e.stats.rows = df.rows.length
        ∧ e.stats.min_slack = minQ (slacks (coerceTable parse df).rows)
        ∧ e.stats.sum_slack = (slacks (coerceTable parse df).rows).sum)
    ∧ ∃ e ∈ (runCore parse df fc b).summary,
        e.filters = fc.map (fun _ => Value.str "all") := by
  have hmem : (fc.map (fun _ => Value.str "all"))
      ∈ combos (fc.map (fun c => domain df c)) := by
    rw [mem_combos]
    induction fc with
    | nil => exact List.Forall₂.nil
    | cons c fc ih => exact List.Forall₂.cons (by simp [domain]) ih
  have hres : resolve (buildAgg (coerceTable parse df) fc)
      (fc.map (fun _ => Value.str "all"))
      = ⟨df.rows.length, minQ (slacks (coerceTable parse df).rows),
          (slacks (coerceTable parse df).rows).sum⟩ := by
    rw [resolve_eq_rollup, List.filter_eq_self.mpr
      (fun g _ => keyMatches_all_wild)]
    simp only [rollup, Stats.mk.injEq]
    refine ⟨?_, agg_min_slack _ _, agg_sum_slack _ _⟩
    rw [agg_rows_total]
    exact List.length_map _ _
  refine ⟨fun e he hef => ?_,
    ⟨⟨fc.map (fun _ => Value.str "all"),
        resolve (buildAgg (coerceTable parse df) fc)
          (fc.map (fun _ => Value.str "all"))⟩,
      mem_summary.mpr ⟨hmem, rfl⟩, rfl⟩⟩
  obtain ⟨-, hstats⟩ := mem_summary.mp he
  rw [hstats, hef, hres]
  exact ⟨rfl, rfl, rfl⟩

theorem all_wildcard_totals_witness :
    (SummaryRow.mk [Value.str "all", Value.str "all"] ⟨3, some (-2), 2⟩
        ∈ (runCore noParse exampleTable ["endpoint", "corner"] false).summary
      ∧ (SummaryRow.mk [Value.str "all", Value.str "all"]
          ⟨3, some (-2), 2⟩).filters
          = ["endpoint", "corner"].map (fun _ => Value.str "all"))
    ∧ (SummaryRow.mk [Value.str "all", Value.str "all"]
        ⟨3, some (-2), 2⟩).stats.rows = exampleTable.rows.length :=
  ⟨⟨by decide, by decide⟩,
    ((all_wildcard_totals noParse exampleTable ["endpoint", "corner"] false).1
      _ (by decide) (by decide)).1⟩

/-- C4: a combination matched by no input row yields the record
`(0, missing, 0)`; the miss is not an error (the run returns `.ok`
whenever the schema checks pass); and subset files are written only for
combinations with a positive row count, so none for this one. -/
theorem zero_match_combo (parse : String → Option ℤ) (df : Table)
    (fc : List String) (combo : List Value) (b : Bool)
    (hmem : combo ∈ combos (fc.map (fun c => domain df c)))
    (h0 : (coerceTable parse df).rows.countP
        (fun r => keyMatches combo (rowKey fc r)) = 0) :
    (∀ e ∈ (runCore parse df fc b).summary, e.filters = combo →
        e.stats = ⟨0, none, 0⟩)
    ∧ (∃ e ∈ (runCore parse df fc b).summary, e.filters = combo)
    ∧ (∀ name ∈ (runCore parse df fc b).filenames,
        ∃ combo' ∈ combos (fc.map (fun c => domain df c)),
          0 < (resolve (buildAgg (coerceTable parse df) fc) combo').rows
          ∧ name = fname fc combo')
    ∧ (combo ∉ (combos (fc.map (fun c => domain df c))).filter
        (fun c => 0 < (resolve (buildAgg (coerceTable parse df) fc) c).rows))
    ∧ ((∀ c ∈ fc, c ∈ df.cols) → "slack" ∈ df.cols →
        export_combinations_and_summary parse df fc b
          = Except.ok (runCore parse df fc b)) := by
  have hres : resolve (buildAgg (coerceTable parse df) fc) combo
      = ⟨0, none, 0⟩ := by
    rw [resolve_eq_rollup]
    have hfil : (buildAgg (coerceTable parse df) fc).filter
        (fun g => keyMatches combo g.key) = [] := by
      rw [List.filter_eq_nil_iff]
      intro g hg hmatch
      obtain ⟨⟨r, hr, hkey⟩, -⟩ := mem_buildAgg.mp hg
      have hpos : 0 < (coerceTable parse df).rows.countP
          (fun r => keyMatches combo (rowKey fc r)) := by
        rw [List.countP_pos_iff]
        exact ⟨r, hr, by rw [hkey]; exact hmatch⟩
      omega
    rw [hfil]
    rfl
  refine ⟨fun e he hef => ?_,
    ⟨⟨combo, resolve (buildAgg (coerceTable parse df) fc) combo⟩,
      mem_summary.mpr ⟨hmem, rfl⟩, rfl⟩, ?_, ?_, ?_⟩
  · obtain ⟨-, hstats⟩ := mem_summary.mp he
    rw [hstats, hef, hres]
  · intro name hn
    rw [runCore_filenames] at hn
    cases b with
    | false => simp at hn
    | true =>
      rw [if_pos rfl, List.mem_map] at hn
      obtain ⟨combo', hc', rfl⟩ := hn
      rw [List.mem_filter] at hc'
      exact ⟨combo', hc'.1, by simpa using hc'.2, rfl⟩
  · intro hmemf
    rw [List.mem_filter] at hmemf
    have hpos : 0 < (resolve (buildAgg (coerceTable parse df) fc) combo).rows :=
      by simpa using hmemf.2
    rw [hres] at hpos
    exact absurd hpos (by simp)
  · intro hfc hslack
    have hfind : (fc ++ ["slack"]).find? (fun c => ! df.cols.contains c)
        = none := by
      rw [List.find?_eq_none]
      intro c hc
      rw [List.mem_append] at hc
      rcases hc with h | h
      · have := hfc c h
        simp [this]
      · rw [List.mem_singleton] at h
        subst h
        simp [hslack]
    unfold export_combinations_and_summary
    rw [hfind]

theorem zero_match_combo_witness :
    ([Value.str "A", Value.str "Y"]
        ∈ combos (["p", "q"].map (fun c => domain sparseTable c))
      ∧ (coerceTable noParse sparseTable).rows.countP
          (fun r => keyMatches [Value.str "A", Value.str "Y"]
            (rowKey ["p", "q"] r)) = 0)
    ∧ ∃ e ∈ (runCore noParse sparseTable ["p", "q"] true).summary,
        e.filters = [Value.str "A", Value.str "Y"] :=
  ⟨⟨by decide, by decide⟩,
    (zero_match_combo noParse sparseTable ["p", "q"]
      [Value.str "A", Value.str "Y"] true (by decide) (by decide)).2.1⟩

/-- C6: the run is a pure function of its inputs (same input, same
output), and — since the only in-place mutation is the idempotent slack
coercion — a second run on the table left behind by a first run produces
the identical result, provided slack is not itself a category field. -/
theorem run_deterministic_and_idempotent (parse : String → Option ℤ)
    (df : Table) (fc : List String) (b : Bool) (hsl : "slack" ∉ fc) :
    export_combinations_and_summary parse df fc b
      = export_combinations_and_summary parse df fc b
    ∧ export_combinations_and_summary parse (coerceTable parse df) fc b
      = export_combinations_and_summary parse df fc b := by
  refine ⟨rfl, ?_⟩
  have hrun : runCore parse (coerceTable parse df) fc b
      = runCore parse df fc b := by
    unfold runCore
    rw [List.map_congr_left (fun c hc =>
      domain_coerce parse df (fun e => hsl (e ▸ hc))), coerceTable_idem]
  unfold export_combinations_and_summary
  rw [show (coerceTable parse df).cols = df.cols from rfl, hrun]

theorem run_deterministic_and_idempotent_witness :
    ("slack" ∉ ["endpoint", "corner"])
    ∧ export_combinations_and_summary noParse
        (coerceTable noParse exampleTable) ["endpoint", "corner"] true
      = export_combinations_and_summary noParse exampleTable
          ["endpoint", "corner"] true :=
  ⟨by decide, (run_deterministic_and_idempotent noParse exampleTable
    ["endpoint", "corner"] true (by decide)).2⟩

/-- C10: the value `"all"` is always resolved as the wildcard — for every
table and combination, resolution counts the rows matching with `"all"`
positions unconstrained (first conjunct); a column containing the literal
string `"all"` lists it twice in its domain (second conjunct); on a
concrete such table the enumeration produces duplicate records, and no
record reports the count of the rows whose value is literally `"all"`
(remaining conjuncts). -/
theorem literal_all_always_wildcard :
    (∀ (t : Table) (fc : List String) (combo : List Value),
        (resolve (buildAgg t fc) combo).rows
          = t.rows.countP (fun r => keyMatches combo (rowKey fc r)))
    ∧ (∀ (t : Table) (c : String), Value.str "all" ∈ colValues t c →
        (domain t c).count (Value.str "all") = 2)
    ∧ (runCore noParse allDataTable ["k"] false).summary
        = [ ⟨[Value.str "all"], ⟨3, some 1, 6⟩⟩
          , ⟨[Value.str "all"], ⟨3, some 1, 6⟩⟩
          , ⟨[Value.str "x"], ⟨2, some 2, 5⟩⟩ ]
    ∧ allDataTable.rows.countP (fun r => Row.get r "k" = Value.str "all") = 1
    ∧ (∀ e ∈ (runCore noParse allDataTable ["k"] false).summary,
        e.stats.rows ≠ allDataTable.rows.countP
          (fun r => Row.get r "k" = Value.str "all")) := by
  refine ⟨fun t fc combo => resolve_rows_countP t fc combo, ?_,
    by decide, by decide, by decide⟩
  intro t c hall
  unfold domain
  rw [List.count_append]
  have hnd : ((colValues t c).insertionSort vle).Nodup :=
    (List.perm_insertionSort vle _).symm.nodup
      (by unfold colValues; exact List.nodup_dedup _)
  have h1 : ((colValues t c).insertionSort vle).count (Value.str "all") = 1 :=
    List.count_eq_one_of_mem hnd ((List.mem_insertionSort vle).mpr hall)
  rw [h1]
  decide

theorem literal_all_always_wildcard_witness :
    (Value.str "all" ∈ colValues allDataTable "k")
    ∧ (domain allDataTable "k").count (Value.str "all") = 2 :=
  ⟨by decide, literal_all_always_wildcard.2.1 allDataTable "k" (by decide)⟩

theorem mem_of_forall₂_mem {c : List Value} {ls : List (List Value)}
    (h : List.Forall₂ (fun v l => v ∈ l) c ls) :
    ∀ v ∈ c, ∃ l ∈ ls, v ∈ l := by
  induction h with
  | nil =>
    intro v hv
    simp at hv
  | cons hR _ ih =>
    intro v hv
    rw [List.mem_cons] at hv
    rcases hv with rfl | hv
    · exact ⟨_, List.mem_cons_self _ _, hR⟩
    · obtain ⟨l, hl, hvl⟩ := ih v hv
      exact ⟨l, List.mem_cons_of_mem _ hl, hvl⟩

theorem forall₂_map_same {α β γ : Type} {R : β → γ → Prop} {l : List α}
    {f : α → β} {g : α → γ} (h : ∀ a ∈ l, R (f a) (g a)) :
    List.Forall₂ R (l.map f) (l.map g) := by
  induction l with
  | nil => exact List.Forall₂.nil
  | cons a l ih =>
    exact List.Forall₂.cons (h a (List.mem_cons_self a l))
      (ih (fun x hx => h x (List.mem_cons_of_mem a hx)))

/-- C3 as stated is false on the code: a row with a missing category
value is counted in the table's total but belongs to no fully concrete
combination (the domains drop missing values), so the concrete row
counts sum to 0 ≠ 1 on `missingCatTable`. -/
theorem concrete_sum_counterexample :
    ¬ (concreteRowTotal (runCore noParse missingCatTable ["a"] false)
        = missingCatTable.rows.length) := by decide

/-- C3, amended: when no category cell of the table is missing or the
literal wildcard string `"all"`, and slack is not itself a category
field, the row counts of the fully concrete combinations sum to the
total number of rows. -/
theorem concrete_sum_eq_total (parse : String → Option ℤ) (df : Table)
    (fc : List String) (b : Bool)
    (hclean : ∀ r ∈ df.rows, ∀ c ∈ fc,
        Row.get r c ≠ Value.missing ∧ Row.get r c ≠ Value.str "all")
    (hsl : "slack" ∉ fc) :
    concreteRowTotal (runCore parse df fc b) = df.rows.length := by
  have hDval : ∀ {c : String} {v : Value}, c ∈ fc →
      v ∈ (colValues df c).insertionSort vle → isWild v = false := by
    intro c v hc hv
    rw [List.mem_insertionSort, mem_colValues] at hv
    obtain ⟨hvm, -⟩ := hv
    rw [List.mem_map] at hvm
    obtain ⟨r, hr, rfl⟩ := hvm
    have h2 := (hclean r hr c hc).2
    simp [isWild, h2]
  have hdom : (fc.map (fun c => domain df c)).map
      (fun l => l.filter (fun v => !(isWild v)))
      = fc.map (fun c => (colValues df c).insertionSort vle) := by
    rw [List.map_map]
    refine List.map_congr_left (fun c hc => ?_)
    show (domain df c).filter (fun v => !(isWild v))
        = (colValues df c).insertionSort vle
    unfold domain
    rw [List.filter_append,
      show List.filter (fun v => !(isWild v)) [Value.str "all"] = [] from rfl,
      List.append_nil]
    refine List.filter_eq_self.mpr (fun v hv => ?_)
    rw [hDval hc hv]
    rfl
  have hcombo_rows : ∀ combo ∈ combos
      (fc.map (fun c => (colValues df c).insertionSort vle)),
      (resolve (buildAgg (coerceTable parse df) fc) combo).rows
        = (df.rows.filter (fun r => rowKey fc r = combo)).length := by
    intro combo hcombo
    have hconc : ∀ v ∈ combo, isWild v = false := by
      intro v hv
      obtain ⟨l, hl, hvl⟩ := mem_of_forall₂_mem (mem_combos.mp hcombo) v hv
      rw [List.mem_map] at hl
      obtain ⟨c, hc, rfl⟩ := hl
      exact hDval hc hvl
    have hlen : combo.length = fc.length := by
      have h := length_of_mem_combos hcombo
      simpa using h
    rw [resolve_rows_countP,
      show (coerceTable parse df).rows = df.rows.map (coerceRow parse) from rfl,
      List.countP_map, ← List.countP_eq_length_filter]
    refine List.countP_congr (fun r _ => ?_)
    show keyMatches combo (rowKey fc (coerceRow parse r)) = true
        ↔ decide (rowKey fc r = combo) = true
    rw [rowKey_coerceRow parse hsl r, decide_eq_true_eq,
      keyMatches_of_concrete hconc (by simp [rowKey, hlen])]
    exact eq_comm
  have hnodup : (combos
      (fc.map (fun c => (colValues df c).insertionSort vle))).Nodup := by
    refine combos_nodup (fun l hl => ?_)
    rw [List.mem_map] at hl
    obtain ⟨c, -, rfl⟩ := hl
    exact (List.perm_insertionSort vle _).symm.nodup
      (by unfold colValues; exact List.nodup_dedup _)
  have hsub : ∀ k ∈ df.rows.map (rowKey fc),
      k ∈ combos (fc.map (fun c => (colValues df c).insertionSort vle)) := by
    intro k hk
    rw [List.mem_map] at hk
    obtain ⟨r, hr, rfl⟩ := hk
    rw [mem_combos]
    unfold rowKey
    refine forall₂_map_same (fun c hc => ?_)
    rw [List.mem_insertionSort, mem_colValues]
    exact ⟨List.mem_map_of_mem _ hr, (hclean r hr c hc).1⟩
  unfold concreteRowTotal
  rw [runCore_summary,
    (((List.perm_insertionSort srle _).filter _).map _).sum_eq,
    List.filter_map, List.map_map]
  show (((combos (fc.map (fun c => domain df c))).filter
      (fun c => !(c.any isWild))).map
      (fun combo =>
        (resolve (buildAgg (coerceTable parse df) fc) combo).rows)).sum
    = df.rows.length

  rw [combos_filter_noWild, hdom, List.map_congr_left hcombo_rows,
    List.map_congr_left
      (fun combo _ => length_filter_eq_count df.rows (rowKey fc) combo),
    sum_count_eq_length _ _ hnodup hsub, List.length_map]
theorem concrete_sum_eq_total_witness :
    ((∀ r ∈ exampleTable.rows, ∀ c ∈ ["endpoint", "corner"],
        Row.get r c ≠ Value.missing ∧ Row.get r c ≠ Value.str "all")
      ∧ "slack" ∉ ["endpoint", "corner"])
    ∧ concreteRowTotal (runCore noParse exampleTable ["endpoint", "corner"]
        false) = exampleTable.rows.length :=
  ⟨⟨by decide, by decide⟩,
    concrete_sum_eq_total noParse exampleTable ["endpoint", "corner"] false
      (by decide) (by decide)⟩

end Rep
